import Mathlib

/-!
Verification development for the SDV relational modeling engine ("Modeler").

The repository ships the Modeler's test suite (`tests/sdv/test_modeler.py`)
and a demo entry point, but the `sdv/modeler.py` module itself is not part
of the source tree.  The definitions below are therefore modelled from the
specification (`spec.md`), faithful to its words and consistent with the
expected values recorded in the test suite.  Numbers are embedded as
rationals (ℚ); the univariate standard deviation requires a square root,
which no claim inspects numerically, so fitting procedures take an abstract
square-root function `sq : ℚ → ℚ` as a parameter.
-/

namespace SDV

/-- Per-column univariate distribution parameters exposed by a fitted
multivariate model: at least `std` and `mean` (§4.3). -/
structure ColParams where
  std : ℚ
  mean : ℚ
  deriving DecidableEq, Repr

/-- Modelled from the spec: a Fitted Model (§3) holds a covariance matrix
over D numeric columns (D×D) and D univariate parameter sets, in column
order. -/
structure MVModel where
  covariance : List (List ℚ)
  distribs : List ColParams
  deriving DecidableEq, Repr

/-- Modelled from the spec: `flatten_model` (§4.3).  First the covariance
matrix flattened row-major, then for each column in original order its
`std` followed by its `mean`. -/
def flatten_model (m : MVModel) : List ℚ :=
  m.covariance.flatten ++ m.distribs.flatMap (fun c => [c.std, c.mean])

/-- Modelled from the spec: `reconstruct` (§4.3) rehydrates model
parameters from a flat vector and the column count D. -/
def reconstruct (v : List ℚ) (D : Nat) : MVModel :=
  { covariance := (List.range D).map (fun i => ((v.drop (D * i)).take D)),
    distribs := (List.range D).map
      (fun i => ⟨v.getD (D * D + 2 * i) 0, v.getD (D * D + 2 * i + 1) 0⟩) }

/-- Mean of a list of rationals; 0 on the empty list. -/
def qmean (xs : List ℚ) : ℚ :=
  if xs.length = 0 then 0 else xs.sum / xs.length

/-- Modelled from the spec: a covariance entry between two columns, with
the degenerate-group policy of §4.2 — fewer than two rows yield zero
variance rather than failing. -/
def covEntry (xs ys : List ℚ) : ℚ :=
  if xs.length ≤ 1 then 0
  else (List.zipWith (fun a b => (a - qmean xs) * (b - qmean ys)) xs ys).sum
        / ((xs.length : ℚ) - 1)

/-- Modelled from the spec: fitting a multivariate model over a table
given as its list of numeric columns (§4.3): a D×D covariance matrix plus,
per column, a univariate fit exposing std (square root of the variance,
via the abstract `sq`) and mean. -/
def fitModel (sq : ℚ → ℚ) (cols : List (List ℚ)) : MVModel :=
  { covariance := cols.map (fun x => cols.map (fun y => covEntry x y)),
    distribs := cols.map (fun x => ⟨sq (covEntry x x), qmean x⟩) }

/-- A pandas-like numeric data frame: a row index plus named columns;
missing entries are `none`. -/
structure DF where
  index : List Nat
  cols : List (String × List (Option ℚ))
  deriving DecidableEq, Repr

/-- Row count of a data frame (pandas `shape[0]`: the index length). -/
def DF.rowCount (df : DF) : Nat := df.index.length

/-- Well-formedness: every column has one entry per index row. -/
def DF.WF (df : DF) : Prop := ∀ c ∈ df.cols, c.2.length = df.index.length

instance (df : DF) : Decidable df.WF := by
  unfold DF.WF; infer_instance

/-- Values actually present (non-missing) in a column. -/
def presentVals (xs : List (Option ℚ)) : List ℚ := xs.filterMap id

/-- Modelled from the spec: `impute_table` (§4.1) — replace each missing
entry of a column with the mean of that column's present values (0 when
the column is entirely missing), returning a new table of identical
shape; the input is not touched. -/
def impute_table (df : DF) : DF :=
  { index := df.index,
    cols := df.cols.map (fun c =>
      (c.1, c.2.map (fun e => some (e.getD (qmean (presentVals c.2)))))) }
/-- A nested structure of rationals: a scalar, a string-keyed mapping, or
a numeric array (§4.3's "nested mapping or nested numeric array"). -/
inductive Nested where
  | leaf (v : ℚ)
  | dict (entries : List (String × Nested))
  | arr (items : List Nested)

/-- Key-path joining used by the flattener: the fixed two-character
separator `__` between consecutive components. -/
def joinKey (pfx key : String) : String :=
  if pfx = "" then key else pfx ++ "__" ++ key

mutual
/-- Modelled from the spec: `_flatten_dict` (§4.3) over the entries of a
mapping, carrying the accumulated key path in `pfx`. -/
def flattenEntries (pfx : String) : List (String × Nested) → List (String × ℚ)
  | [] => []
  | (k, v) :: rest => flattenValue (joinKey pfx k) v ++ flattenEntries pfx rest

/-- Dispatch on one nested value under an accumulated key. -/
def flattenValue (key : String) : Nested → List (String × ℚ)
  | .leaf v => [(key, v)]
  | .dict es => flattenEntries key es
  | .arr xs => flattenItems key 0 xs

/-- Modelled from the spec: `_flatten_array` (§4.3) — array indices are
rendered as string keys in row-major traversal order. -/
def flattenItems (pfx : String) (i : Nat) : List Nested → List (String × ℚ)
  | [] => []
  | x :: rest =>
      flattenValue (joinKey pfx (toString i)) x ++ flattenItems pfx (i + 1) rest
end

/-- Top-level entry point for flattening a mapping (prefix starts empty). -/
def flatten_dict (es : List (String × Nested)) : List (String × ℚ) :=
  flattenEntries "" es

/-- Top-level entry point for flattening an array (prefix starts empty). -/
def flatten_array (xs : List Nested) : List (String × ℚ) :=
  flattenItems "" 0 xs

mutual
/-- The key paths of a mapping's entries, with the leaf they reach. -/
def entryPaths : List (String × Nested) → List (List String × ℚ)
  | [] => []
  | (k, v) :: rest =>
      (valuePaths v).map (fun pv => (k :: pv.1, pv.2)) ++ entryPaths rest

/-- The key paths of a nested value. -/
def valuePaths : Nested → List (List String × ℚ)
  | .leaf v => [([], v)]
  | .dict es => entryPaths es
  | .arr xs => itemPaths 0 xs

/-- The key paths of an array's items, indices rendered as strings. -/
def itemPaths (i : Nat) : List Nested → List (List String × ℚ)
  | [] => []
  | x :: rest =>
      (valuePaths x).map (fun pv => (toString i :: pv.1, pv.2)) ++ itemPaths (i + 1) rest
end

/-- A key path rendered as a single key: components joined by `__`. -/
def joinPath : List String → String
  | [] => ""
  | [k] => k
  | k :: rest => k ++ "__" ++ joinPath rest

/-- Prepend an accumulated prefix to a path unless it is empty. -/
def keyPfx (pfx : String) (p : List String) : List String :=
  if pfx = "" then p else pfx :: p

/-- Structures whose mapping keys are all nonempty strings. -/
inductive NEK : Nested → Prop where
  | leaf (v : ℚ) : NEK (.leaf v)
  | dict {es : List (String × Nested)}
      (hk : ∀ e ∈ es, e.1 ≠ "") (h : ∀ e ∈ es, NEK e.2) : NEK (.dict es)
  | arr {xs : List Nested} (h : ∀ x ∈ xs, NEK x) : NEK (.arr xs)
/-- Modelled from the spec: a named table (§3) with its primary-key
column, the foreign-key column that links its rows to its parent, and its
numeric (transformed) data. -/
structure Table where
  name : String
  primaryKey : String
  foreignKey : String
  data : DF
  deriving DecidableEq, Repr

/-- Look a named column up in a data frame ([] when absent). -/
def dfCol (df : DF) (cname : String) : List (Option ℚ) :=
  ((df.cols.find? (fun c => c.1 == cname)).map Prod.snd).getD []

/-- Positions of rows whose foreign-key value matches `v`. -/
def matchPositions (fkcol : List (Option ℚ)) (v : Option ℚ) : List Nat :=
  (List.range fkcol.length).filter (fun i => fkcol.getD i none == v)

/-- Modelled from the spec: the group of child rows matching one parent
key value (§4.2 steps 1–2); may be empty. -/
def groupRows (df : DF) (fk : String) (v : Option ℚ) : DF :=
  { index := matchPositions (dfCol df fk) v,
    cols := df.cols.map (fun c =>
      (c.1, (matchPositions (dfCol df fk) v).map (fun i => c.2.getD i none))) }

/-- The numeric column data of a table (present values per column). -/
def numericCols (df : DF) : List (List ℚ) :=
  df.cols.map (fun c => presentVals c.2)

/-- Modelled from the spec: `_create_extension` (§4.2 steps 3–4) — fit a
multivariate model over the imputed numeric columns of one group and
flatten it into one numeric row. -/
def create_extension (sq : ℚ → ℚ) (group : DF) : List ℚ :=
  flatten_model (fitModel sq (numericCols (impute_table group)))

/-- The fixed extension width L = D² + 2·D for a child with D numeric
columns. -/
def extWidth (child : Table) : Nat :=
  child.data.cols.length * child.data.cols.length + 2 * child.data.cols.length

/-- Modelled from the spec: the Extension Builder (§4.2) for one child —
one flattened-model row per parent primary-key value, assembled
column-wise onto the parent's index; extension columns are name-prefixed
with the child's name per the separator rule of §4.3. -/
def buildExtension (sq : ℚ → ℚ) (parent child : Table) : DF :=
  let pkVals := dfCol parent.data parent.primaryKey
  let rows := pkVals.map
    (fun v => create_extension sq (groupRows child.data child.foreignKey v))
  { index := parent.data.index,
    cols := (List.range (extWidth child)).map
      (fun j => (joinKey child.name (toString j),
                 rows.map (fun r => some (r.getD j 0)))) }

/-- Modelled from the spec: `_get_extensions` — one extension table per
child; the empty sequence when there are no children. -/
def get_extensions (sq : ℚ → ℚ) (parent : Table) (children : List Table) :
    List DF :=
  children.map (buildExtension sq parent)

/-- Modelled from the spec: CPA (§4.4) — concatenate all extension
columns onto the table's raw data, aligned on the raw index. -/
def CPA (sq : ℚ → ℚ) (t : Table) (children : List Table) : DF :=
  { index := t.data.index,
    cols := t.data.cols ++ (get_extensions sq t children).flatMap (fun e => e.cols) }

/-- A table whose declared primary-key column exists with one value per
row. -/
def HasPK (t : Table) : Prop :=
  (dfCol t.data t.primaryKey).length = t.data.index.length

instance (t : Table) : Decidable (HasPK t) := by
  unfold HasPK; infer_instance
/-- Modelled from the spec: the relationship graph as a forest (§3) — no
table is its own ancestor, children listed per node. -/
inductive TTree where
  | node (t : Table) (children : List TTree)

/-- The table stored at a node. -/
def TTree.table : TTree → Table
  | .node t _ => t

/-- The child subtrees of a node. -/
def TTree.childNodes : TTree → List TTree
  | .node _ cs => cs

/-- Driver events, in execution order: CPA start and model fit, per
table name. -/
inductive Ev where
  | cpaEv (n : String)
  | fitEv (n : String)
  deriving DecidableEq, Repr

/-- Output of processing one node: its table rewritten with the
augmented data, the two registries, and the event trace. -/
structure ProcOut where
  tab : Table
  tables : List (String × DF)
  models : List (String × MVModel)
  events : List Ev

/-- Output of processing a forest of sibling subtrees. -/
structure ForestOut where
  tabs : List Table
  tables : List (String × DF)
  models : List (String × MVModel)
  events : List Ev

mutual
/-- Modelled from the spec: the recursive driver step (§4.5) — process
all children first, then run CPA over the children's augmented tables,
impute, fit the table's model, and store both registries. -/
def processTree (sq : ℚ → ℚ) : TTree → ProcOut
  | .node t cs =>
      let sub := processForest sq cs
      let aug := CPA sq t sub.tabs
      let m := fitModel sq (numericCols (impute_table aug))
      ⟨{ t with data := aug },
       sub.tables ++ [(t.name, aug)],
       sub.models ++ [(t.name, m)],
       sub.events ++ [.cpaEv t.name, .fitEv t.name]⟩

/-- Process sibling subtrees left to right, concatenating results. -/
def processForest (sq : ℚ → ℚ) : List TTree → ForestOut
  | [] => ⟨[], [], [], []⟩
  | c :: rest =>
      let pc := processTree sq c
      let pr := processForest sq rest
      ⟨pc.tab :: pr.tabs, pc.tables ++ pr.tables, pc.models ++ pr.models,
       pc.events ++ pr.events⟩
end

/-- Modelled from the spec: `model_database` (§4.5) over the whole
forest: returns the augmented-table registry and the model registry. -/
def model_database (sq : ℚ → ℚ) (db : List TTree) :
    List (String × DF) × List (String × MVModel) :=
  ((processForest sq db).tables, (processForest sq db).models)

mutual
/-- All table names of a subtree, children first (processing order). -/
def treeNames : TTree → List String
  | .node t cs => forestNames cs ++ [t.name]

/-- All table names of a forest, in processing order. -/
def forestNames : List TTree → List String
  | [] => []
  | c :: rest => treeNames c ++ forestNames rest
end

/-- A node occurring somewhere in a tree (the tree itself or nested in a
child subtree). -/
inductive Occurs : TTree → TTree → Prop where
  | refl (t : TTree) : Occurs t t
  | childStep {nd c : TTree} {t : Table} {cs : List TTree}
      (hc : c ∈ cs) (h : Occurs nd c) : Occurs nd (.node t cs)
/-- A univariate distribution class, identified by its module path and
class name. -/
structure UnivClass where
  modName : String
  clsName : String
  deriving DecidableEq, Repr

/-- Fully qualified name of a distribution class: module path plus class
name. -/
def getQualifiedName (u : UnivClass) : String := u.modName ++ "." ++ u.clsName

/-- The `copulas.univariate.kde.KDEUnivariate` distribution class. -/
def KDEUnivariate : UnivClass := ⟨"copulas.univariate.kde", "KDEUnivariate"⟩

/-- Modelled from the spec and `test_fit_model_distribution_arg` (the
Modeler source is absent): `fit_model` constructs the configured model
class exactly once — passing the configured distribution's
fully-qualified name when one is present — and fits it over the data.
The second component is the log of constructor calls with their
`distribution` argument. -/
def fit_model (sq : ℚ → ℚ) (distribution : Option UnivClass) (data : DF) :
    MVModel × List (Option String) :=
  (fitModel sq (numericCols (impute_table data)),
   [distribution.map getQualifiedName])

/- ### Theorems -/

/- ### List helper lemmas -/

theorem join_length_uniform (D : Nat) :
    ∀ (rows : List (List ℚ)), (∀ r ∈ rows, r.length = D) →
      rows.flatten.length = D * rows.length := by
  intro rows
  induction rows with
  | nil => intro _; simp
  | cons r rest ih =>
      intro h
      simp only [List.flatten_cons, List.length_append, List.length_cons]
      rw [ih (fun x hx => h x (List.mem_cons_of_mem _ hx)),
          h r (List.mem_cons_self _ _)]
      ring

theorem bind_pair_length (ps : List ColParams) :
    (ps.flatMap (fun c => [c.std, c.mean])).length = 2 * ps.length := by
  induction ps with
  | nil => rfl
  | cons p rest ih =>
      simp only [List.flatMap_cons, List.length_append, List.length_cons,
        List.length_nil, ih]
      omega

/-- Indexing into the row-major flattening of uniform-width rows. -/
theorem join_getD_uniform (D : Nat) :
    ∀ (rows : List (List ℚ)) (tail : List ℚ), (∀ r ∈ rows, r.length = D) →
      ∀ i j, i < rows.length → j < D →
        (rows.flatten ++ tail).getD (D * i + j) 0 = (rows.getD i []).getD j 0 := by
  intro rows
  induction rows with
  | nil => intro _ _ i j hi _; exact absurd hi (Nat.not_lt_zero i)
  | cons r rest ih =>
      intro tail h i j hi hj
      have hr : r.length = D := h r (List.mem_cons_self _ _)
      cases i with
      | zero =>
          simp only [Nat.mul_zero, Nat.zero_add, List.getD_cons_zero]
          rw [List.flatten_cons, List.append_assoc,
            List.getD_append _ _ _ _ (by omega)]
      | succ i' =>
          have hrest : ∀ x ∈ rest, x.length = D :=
            fun x hx => h x (List.mem_cons_of_mem _ hx)
          have hi' : i' < rest.length := by
            simpa using Nat.lt_of_succ_lt_succ hi
          have hidx : D * (i' + 1) + j = r.length + (D * i' + j) := by
            rw [hr, Nat.mul_succ]; ring
          rw [List.flatten_cons, List.append_assoc, List.getD_cons_succ, hidx,
            List.getD_append_right _ _ _ _ (Nat.le_add_right _ _),
            Nat.add_sub_cancel_left]
          exact ih tail hrest i' j hi' hj

theorem getD_map_lt {α β : Type} (f : α → β) (xs : List α) (d : α) (d' : β)
    (i : Nat) (hi : i < xs.length) :
    (xs.map f).getD i d' = f (xs.getD i d) := by
  rw [List.getD_eq_getElem _ _ (by simpa using hi), List.getElem_map,
    List.getD_eq_getElem _ _ hi]

/-- Indexing into the per-column `[std, mean]` tail of a flattened model. -/
theorem flatMap_pair_getD (ps : List ColParams) :
    ∀ i, i < ps.length →
      (ps.flatMap (fun c => [c.std, c.mean])).getD (2 * i) 0
          = (ps.getD i ⟨0, 0⟩).std
      ∧ (ps.flatMap (fun c => [c.std, c.mean])).getD (2 * i + 1) 0
          = (ps.getD i ⟨0, 0⟩).mean := by
  induction ps with
  | nil => intro i hi; exact absurd hi (Nat.not_lt_zero i)
  | cons p rest ih =>
      intro i hi
      cases i with
      | zero => exact ⟨rfl, rfl⟩
      | succ i' =>
          have hi' : i' < rest.length := Nat.lt_of_succ_lt_succ (by simpa using hi)
          obtain ⟨hs, hm⟩ := ih i' hi'
          have e1 : 2 * (i' + 1) = 2 * i' + 1 + 1 := by ring
          have e2 : 2 * (i' + 1) + 1 = 2 * i' + 1 + 1 + 1 := by ring
          constructor
          · simp only [List.flatMap_cons, List.cons_append, List.nil_append, e1,
              List.getD_cons_succ, List.getD_cons_succ]
            exact hs
          · simp only [List.flatMap_cons, List.cons_append, List.nil_append, e2,
              List.getD_cons_succ, List.getD_cons_succ]
            exact hm

/-- Slicing row `i` back out of the row-major flattening. -/
theorem join_slice_uniform (D : Nat) :
    ∀ (rows : List (List ℚ)) (tail : List ℚ), (∀ r ∈ rows, r.length = D) →
      ∀ i, i < rows.length →
        ((rows.flatten ++ tail).drop (D * i)).take D = rows.getD i [] := by
  intro rows
  induction rows with
  | nil => intro _ _ i hi; exact absurd hi (Nat.not_lt_zero i)
  | cons r rest ih =>
      intro tail h i hi
      have hr : r.length = D := h r (List.mem_cons_self _ _)
      cases i with
      | zero =>
          simp only [Nat.mul_zero, List.drop_zero, List.getD_cons_zero]
          rw [List.flatten_cons, List.append_assoc, List.take_left' hr]
      | succ i' =>
          have hrest : ∀ x ∈ rest, x.length = D :=
            fun x hx => h x (List.mem_cons_of_mem _ hx)
          have hi' : i' < rest.length := Nat.lt_of_succ_lt_succ (by simpa using hi)
          have hidx : D * (i' + 1) = r.length + D * i' := by
            rw [hr, Nat.mul_succ]; ring
          rw [List.flatten_cons, List.append_assoc, List.getD_cons_succ, hidx,
            ← List.drop_drop, List.drop_left]
          exact ih tail hrest i' hi'

theorem range_map_eq_of_getD {α : Type} (n : Nat) (f : Nat → α) (xs : List α)
    (d : α) (hn : xs.length = n) (h : ∀ i, i < n → f i = xs.getD i d) :
    (List.range n).map f = xs := by
  apply List.ext_getElem
  · simp [hn]
  · intro i h1 h2
    simp only [List.getElem_map, List.getElem_range]
    rw [h i (by simpa [hn] using h2), List.getD_eq_getElem _ _ h2]

/-- The length of a flattened model with D×D covariance and D columns. -/
theorem flatten_model_length (m : MVModel) (D : Nat)
    (hrows : m.covariance.length = D)
    (hrow : ∀ r ∈ m.covariance, r.length = D)
    (hd : m.distribs.length = D) :
    (flatten_model m).length = D * D + 2 * D := by
  unfold flatten_model
  rw [List.length_append, join_length_uniform D _ hrow, hrows,
    bind_pair_length, hd]

/-- C1 (helper form): pointwise layout of `flatten_model (fitModel sq cols)`:
row-major covariance entries first, then per-column std and mean. -/
theorem flatten_fit_layout (sq : ℚ → ℚ) (cols : List (List ℚ)) (D : Nat)
    (hD : cols.length = D) :
    (flatten_model (fitModel sq cols)).length = D * D + 2 * D
    ∧ (∀ i j, i < D → j < D →
        (flatten_model (fitModel sq cols)).getD (D * i + j) 0
          = covEntry (cols.getD i []) (cols.getD j []))
    ∧ (∀ i, i < D →
        (flatten_model (fitModel sq cols)).getD (D * D + 2 * i) 0
            = sq (covEntry (cols.getD i []) (cols.getD i []))
        ∧ (flatten_model (fitModel sq cols)).getD (D * D + 2 * i + 1) 0
            = qmean (cols.getD i [])) := by
  subst hD
  have hrow : ∀ r ∈ (fitModel sq cols).covariance, r.length = cols.length := by
    intro r hr
    simp only [fitModel, List.mem_map] at hr
    obtain ⟨x, _, rfl⟩ := hr
    simp
  have hrows : (fitModel sq cols).covariance.length = cols.length := by
    simp [fitModel]
  have hd : (fitModel sq cols).distribs.length = cols.length := by
    simp [fitModel]
  have hjoin : (fitModel sq cols).covariance.flatten.length
      = cols.length * cols.length := by
    rw [join_length_uniform cols.length _ hrow, hrows]
  refine ⟨flatten_model_length _ _ hrows hrow hd, ?_, ?_⟩
  · intro i j hi hj
    unfold flatten_model
    rw [join_getD_uniform cols.length _ _ hrow i j (by rwa [hrows]) hj]
    show ((cols.map fun x => cols.map fun y => covEntry x y).getD i []).getD j 0 = _
    rw [getD_map_lt _ _ [] _ i hi, getD_map_lt _ _ [] _ j hj]
  · intro i hi
    unfold flatten_model
    have h1 : ∀ k, ((fitModel sq cols).covariance.flatten
        ++ (fitModel sq cols).distribs.flatMap (fun c => [c.std, c.mean])).getD
          (cols.length * cols.length + k) 0
        = ((fitModel sq cols).distribs.flatMap (fun c => [c.std, c.mean])).getD k 0 := by
      intro k
      rw [List.getD_append_right _ _ _ _ (by rw [hjoin]; omega), hjoin,
        Nat.add_sub_cancel_left]
    obtain ⟨hs, hm⟩ := flatMap_pair_getD (fitModel sq cols).distribs i (by rwa [hd])
    refine ⟨?_, ?_⟩
    · rw [h1 (2 * i), hs]
      show ((cols.map fun x => (⟨sq (covEntry x x), qmean x⟩ : ColParams)).getD
        i ⟨0, 0⟩).std = _
      rw [getD_map_lt _ _ [] _ i hi]
    · rw [Nat.add_assoc, h1 (2 * i + 1), hm]
      show ((cols.map fun x => (⟨sq (covEntry x x), qmean x⟩ : ColParams)).getD
        i ⟨0, 0⟩).mean = _
      rw [getD_map_lt _ _ [] _ i hi]

/-- Round-trip: `reconstruct` undoes `flatten_model` on any well-formed model. -/
theorem reconstruct_flatten (m : MVModel) (D : Nat)
    (hrows : m.covariance.length = D)
    (hrow : ∀ r ∈ m.covariance, r.length = D)
    (hd : m.distribs.length = D) :
    reconstruct (flatten_model m) D = m := by
  have hjoin : m.covariance.flatten.length = D * D := by
    rw [join_length_uniform D _ hrow, hrows]
  have htail : ∀ k, (flatten_model m).getD (D * D + k) 0
      = (m.distribs.flatMap (fun c => [c.std, c.mean])).getD k 0 := by
    intro k
    unfold flatten_model
    rw [List.getD_append_right _ _ _ _ (by rw [hjoin]; omega), hjoin,
      Nat.add_sub_cancel_left]
  have hcov : (List.range D).map
      (fun i => (((flatten_model m).drop (D * i)).take D)) = m.covariance := by
    apply range_map_eq_of_getD D _ _ [] hrows
    intro i hi
    unfold flatten_model
    exact join_slice_uniform D _ _ hrow i (by rwa [hrows])
  have hdist : (List.range D).map
      (fun i => (⟨(flatten_model m).getD (D * D + 2 * i) 0,
                  (flatten_model m).getD (D * D + 2 * i + 1) 0⟩ : ColParams))
      = m.distribs := by
    apply range_map_eq_of_getD D _ _ ⟨0, 0⟩ hd
    intro i hi
    obtain ⟨hs, hm2⟩ := flatMap_pair_getD m.distribs i (by rwa [hd])
    rw [htail (2 * i), Nat.add_assoc, htail (2 * i + 1), hs, hm2]
  unfold reconstruct
  rw [hcov, hdist]

theorem fitModel_covariance_length (sq : ℚ → ℚ) (cols : List (List ℚ)) :
    (fitModel sq cols).covariance.length = cols.length := by
  simp [fitModel]

theorem fitModel_covariance_rows (sq : ℚ → ℚ) (cols : List (List ℚ)) :
    ∀ r ∈ (fitModel sq cols).covariance, r.length = cols.length := by
  intro r hr
  simp only [fitModel, List.mem_map] at hr
  obtain ⟨x, _, rfl⟩ := hr
  simp

theorem fitModel_distribs_length (sq : ℚ → ℚ) (cols : List (List ℚ)) :
    (fitModel sq cols).distribs.length = cols.length := by
  simp [fitModel]

/-- C1: for every fitted multivariate model over D numeric columns,
`flatten_model` returns the D×D covariance matrix flattened row-major
(D² values) followed by, for each column in original order, its std and
then its mean (2D values); the total length is D² + 2D. -/
theorem C1_flatten_model_layout (sq : ℚ → ℚ) (cols : List (List ℚ)) (D : Nat)
    (hD : cols.length = D) :
    (flatten_model (fitModel sq cols)).length = D * D + 2 * D
    ∧ (∀ i j, i < D → j < D →
        (flatten_model (fitModel sq cols)).getD (D * i + j) 0
          = covEntry (cols.getD i []) (cols.getD j []))
    ∧ (∀ i, i < D →
        (flatten_model (fitModel sq cols)).getD (D * D + 2 * i) 0
            = sq (covEntry (cols.getD i []) (cols.getD i []))
        ∧ (flatten_model (fitModel sq cols)).getD (D * D + 2 * i + 1) 0
            = qmean (cols.getD i [])) :=
  flatten_fit_layout sq cols D hD

/-- Witness for C1 at a concrete two-column table. -/
theorem C1_flatten_model_layout_witness :
    ([[(1 : ℚ), 2], [3, 4]] : List (List ℚ)).length = 2
    ∧ (flatten_model (fitModel id [[(1 : ℚ), 2], [3, 4]])).length = 2 * 2 + 2 * 2 :=
  ⟨rfl, (C1_flatten_model_layout id [[(1 : ℚ), 2], [3, 4]] 2 rfl).1⟩

/-- C2: for every fitted model with D numeric columns,
`reconstruct (flatten_model model) D` reproduces the model — its
covariance matrix and every column's (std, mean) — exactly. -/
theorem C2_reconstruct_flatten_roundtrip (sq : ℚ → ℚ) (cols : List (List ℚ)) :
    reconstruct (flatten_model (fitModel sq cols)) cols.length = fitModel sq cols :=
  reconstruct_flatten (fitModel sq cols) cols.length
    (fitModel_covariance_length sq cols)
    (fitModel_covariance_rows sq cols)
    (fitModel_distribs_length sq cols)

theorem impute_table_colAt (df : DF) (i : Nat) (hi : i < df.cols.length) :
    (impute_table df).cols.getD i ("", [])
      = ((df.cols.getD i ("", [])).1,
         (df.cols.getD i ("", [])).2.map
           (fun e => some (e.getD (qmean (presentVals (df.cols.getD i ("", [])).2))))) := by
  unfold impute_table
  exact getD_map_lt _ _ ("", []) _ i hi

/-- C7: `impute_table` returns a table of identical shape with zero
missing entries; each missing entry becomes the mean of its column's
present values (0 when the column is entirely missing), present entries
are unchanged, and the input table is left untouched (the operation is
pure). -/
theorem C7_impute_table_spec (df : DF) :
    (impute_table df).index = df.index
    ∧ (impute_table df).cols.length = df.cols.length
    ∧ (∀ i, i < df.cols.length →
        ((impute_table df).cols.getD i ("", [])).1 = (df.cols.getD i ("", [])).1
        ∧ ((impute_table df).cols.getD i ("", [])).2.length
            = (df.cols.getD i ("", [])).2.length)
    ∧ (∀ c ∈ (impute_table df).cols, ∀ e ∈ c.2, e.isSome = true)
    ∧ (∀ i, i < df.cols.length →
        ∀ k, k < (df.cols.getD i ("", [])).2.length →
          ((df.cols.getD i ("", [])).2.getD k none = none →
              ((impute_table df).cols.getD i ("", [])).2.getD k none
                = some (qmean (presentVals (df.cols.getD i ("", [])).2))
              ∧ (presentVals (df.cols.getD i ("", [])).2 = [] →
                  ((impute_table df).cols.getD i ("", [])).2.getD k none = some 0))
          ∧ (∀ v, (df.cols.getD i ("", [])).2.getD k none = some v →
              ((impute_table df).cols.getD i ("", [])).2.getD k none = some v)) := by
  refine ⟨rfl, by simp [impute_table], ?_, ?_, ?_⟩
  · intro i hi
    rw [impute_table_colAt df i hi]
    exact ⟨rfl, by simp⟩
  · intro c hc e he
    simp only [impute_table, List.mem_map] at hc
    obtain ⟨c', _, rfl⟩ := hc
    simp only [List.mem_map] at he
    obtain ⟨e', _, rfl⟩ := he
    rfl
  · intro i hi k hk
    rw [impute_table_colAt df i hi]
    rw [getD_map_lt _ _ none _ k hk]
    constructor
    · intro hnone
      rw [hnone]
      refine ⟨rfl, ?_⟩
      intro hempty
      rw [hempty]
      simp [qmean]
    · intro v hv
      rw [hv]
      rfl

/-- Witness for C7 at a concrete table with a missing entry. -/
theorem C7_impute_table_spec_witness :
    (impute_table ⟨[0, 1], [("A", [none, some 5])]⟩).index = [0, 1] :=
  (C7_impute_table_spec ⟨[0, 1], [("A", [none, some 5])]⟩).1


theorem toDigitsCore_ne_nil (b fuel : Nat) :
    ∀ (n : Nat) (ds : List Char), ds ≠ [] → Nat.toDigitsCore b fuel n ds ≠ [] := by
  induction fuel with
  | zero => intro n ds h; simpa [Nat.toDigitsCore] using h
  | succ f ih =>
      intro n ds h
      simp only [Nat.toDigitsCore]
      split
      · simp
      · exact ih _ _ (by simp)

theorem toString_nat_ne_empty (n : Nat) : toString n ≠ "" := by
  show Nat.repr n ≠ ""
  unfold Nat.repr
  intro h
  have hd : Nat.toDigits 10 n = [] := by
    simpa [List.asString] using congrArg String.data h
  have : Nat.toDigitsCore 10 (n + 1) n [] ≠ [] := by
    simp only [Nat.toDigitsCore]
    split
    · simp
    · exact toDigitsCore_ne_nil _ _ _ _ (by simp)
  exact this (by simpa [Nat.toDigits] using hd)

theorem joinPath_glue (a b : String) (p : List String) :
    joinPath ((a ++ "__" ++ b) :: p) = a ++ "__" ++ joinPath (b :: p) := by
  cases p with
  | nil => rfl
  | cons q qs => simp [joinPath, String.append_assoc]

theorem append_sep_ne_empty (a b : String) : a ++ "__" ++ b ≠ "" := by
  intro h
  have h1 := congrArg String.length h
  rw [String.length_append, String.length_append] at h1
  have h2 : ("__" : String).length = 2 := rfl
  have h3 : ("" : String).length = 0 := rfl
  omega

theorem joinPath_keyPfx_joinKey (pfx k : String) (hk : k ≠ "") (p : List String) :
    joinPath (keyPfx (joinKey pfx k) p) = joinPath (keyPfx pfx (k :: p)) := by
  by_cases hp : pfx = ""
  · subst hp
    unfold joinKey keyPfx
    rw [if_pos rfl, if_neg hk, if_pos rfl]
  · simp only [joinKey, keyPfx, if_neg hp, if_neg (append_sep_ne_empty pfx k)]
    rw [joinPath_glue]
    cases p with
    | nil => rfl
    | cons q qs => rfl

mutual
/-- Every flattened entry of a mapping is a `__`-joined key path. -/
theorem flattenEntries_paths (es : List (String × Nested))
    (hes : ∀ e ∈ es, e.1 ≠ "" ∧ NEK e.2) : ∀ pfx,
    flattenEntries pfx es
      = (entryPaths es).map (fun pv => (joinPath (keyPfx pfx pv.1), pv.2)) := by
  intro pfx
  match es, hes with
  | [], _ => rfl
  | (k, v) :: rest, hes =>
      obtain ⟨hk, hv⟩ := hes (k, v) (List.mem_cons_self _ _)
      rw [flattenEntries, entryPaths, List.map_append, List.map_map,
        flattenValue_paths v hv (joinKey pfx k),
        flattenEntries_paths rest (fun e he => hes e (List.mem_cons_of_mem _ he)) pfx]
      congr 1
      apply List.map_congr_left
      intro pv _
      simp only [Function.comp]
      rw [joinPath_keyPfx_joinKey pfx k hk]

/-- Every flattened entry of a nested value is a `__`-joined key path. -/
theorem flattenValue_paths (n : Nested) (hn : NEK n) : ∀ key,
    flattenValue key n
      = (valuePaths n).map (fun pv => (joinPath (keyPfx key pv.1), pv.2)) := by
  intro key
  match n, hn with
  | .leaf v, _ =>
      by_cases hk : key = ""
      · subst hk; rfl
      · simp only [flattenValue, valuePaths, List.map_cons, List.map_nil, keyPfx,
          if_neg hk, joinPath]
  | .dict es, .dict hk h =>
      rw [flattenValue, valuePaths,
        flattenEntries_paths es (fun e he => ⟨hk e he, h e he⟩) key]
  | .arr xs, .arr h =>
      rw [flattenValue, valuePaths, flattenItems_paths xs h key 0]

/-- Every flattened entry of an array is a `__`-joined index path. -/
theorem flattenItems_paths (xs : List Nested) (hxs : ∀ x ∈ xs, NEK x) :
    ∀ pfx i,
    flattenItems pfx i xs
      = (itemPaths i xs).map (fun pv => (joinPath (keyPfx pfx pv.1), pv.2)) := by
  intro pfx i
  match xs, hxs with
  | [], _ => rfl
  | x :: rest, hxs =>
      rw [flattenItems, itemPaths, List.map_append, List.map_map,
        flattenValue_paths x (hxs x (List.mem_cons_self _ _)) (joinKey pfx (toString i)),
        flattenItems_paths rest (fun y hy => hxs y (List.mem_cons_of_mem _ hy)) pfx (i + 1)]
      congr 1
      apply List.map_congr_left
      intro pv _
      simp only [Function.comp]
      rw [joinPath_keyPfx_joinKey pfx (toString i) (toString_nat_ne_empty i)]
end

/-- C8: the flattening procedure maps every nested key path to its
`__`-joined flat key (array indices rendered as strings, row-major);
in particular `[("a", [("x",1),("y",2)]), ("b",3)]` flattens to
`[("a__x",1),("a__y",2),("b",3)]` and `[[1,0],[0,1]]` flattens to
`[("0__0",1),("0__1",0),("1__0",0),("1__1",1)]`. -/
theorem C8_flatten_separator_spec :
    (∀ es : List (String × Nested), (∀ e ∈ es, e.1 ≠ "" ∧ NEK e.2) →
        flatten_dict es = (entryPaths es).map (fun pv => (joinPath pv.1, pv.2)))
    ∧ (∀ xs : List Nested, (∀ x ∈ xs, NEK x) →
        flatten_array xs = (itemPaths 0 xs).map (fun pv => (joinPath pv.1, pv.2)))
    ∧ flatten_dict [("a", .dict [("x", .leaf 1), ("y", .leaf 2)]), ("b", .leaf 3)]
        = [("a__x", 1), ("a__y", 2), ("b", 3)]
    ∧ flatten_array [.arr [.leaf 1, .leaf 0], .arr [.leaf 0, .leaf 1]]
        = [("0__0", 1), ("0__1", 0), ("1__0", 0), ("1__1", 1)] := by
  refine ⟨?_, ?_, ?_, ?_⟩
  · intro es hes
    unfold flatten_dict
    rw [flattenEntries_paths es hes ""]
    apply List.map_congr_left
    intro pv _
    unfold keyPfx
    rw [if_pos rfl]
  · intro xs hxs
    unfold flatten_array
    rw [flattenItems_paths xs hxs "" 0]
    apply List.map_congr_left
    intro pv _
    unfold keyPfx
    rw [if_pos rfl]
  · simp only [flatten_dict, flattenEntries, flattenValue, flattenItems, joinKey]
    decide
  · simp only [flatten_array, flattenEntries, flattenValue, flattenItems, joinKey]
    decide

/-- Witness for C8's quantified part at a concrete one-entry mapping. -/
theorem C8_flatten_separator_spec_witness :
    flatten_dict [("k", Nested.leaf 5)]
      = (entryPaths [("k", Nested.leaf 5)]).map (fun pv => (joinPath pv.1, pv.2)) :=
  C8_flatten_separator_spec.1 [("k", Nested.leaf 5)]
    (fun e he => by
      rw [List.mem_singleton] at he
      subst he
      exact ⟨by decide, NEK.leaf 5⟩)


theorem buildExtension_col_length (sq : ℚ → ℚ) (parent child : Table) :
    ∀ c ∈ (buildExtension sq parent child).cols,
      c.2.length = (dfCol parent.data parent.primaryKey).length := by
  intro c hc
  simp only [buildExtension, List.mem_map, List.mem_range] at hc
  obtain ⟨j, _, rfl⟩ := hc
  simp

/-- C9: for a table with no children, CPA's augmented table equals its
raw table exactly, and the Extension Builder invoked with an empty child
set returns the empty sequence of extension tables. -/
theorem C9_cpa_identity_no_children (sq : ℚ → ℚ) (t : Table) :
    CPA sq t [] = t.data ∧ get_extensions sq t [] = [] := by
  constructor
  · unfold CPA get_extensions
    simp
  · rfl

/-- C3: for every table with C ≥ 0 children, the CPA-augmented table has
the raw table's row count and row index, contains every original column
name, and remains well-formed (extension columns are strictly additive
and row-aligned). -/
theorem C3_cpa_invariants (sq : ℚ → ℚ) (t : Table) (children : List Table)
    (hwf : t.data.WF) (hpk : HasPK t) :
    (CPA sq t children).rowCount = t.data.rowCount
    ∧ (CPA sq t children).index = t.data.index
    ∧ (∀ c ∈ t.data.cols, c.1 ∈ (CPA sq t children).cols.map Prod.fst)
    ∧ (CPA sq t children).WF := by
  refine ⟨rfl, rfl, ?_, ?_⟩
  · intro c hc
    show c.1 ∈ ((CPA sq t children).cols.map Prod.fst)
    unfold CPA
    rw [List.map_append, List.mem_append]
    exact Or.inl (List.mem_map_of_mem Prod.fst hc)
  · show ∀ c ∈ (CPA sq t children).cols,
      c.2.length = (CPA sq t children).index.length
    intro c hc
    show c.2.length = t.data.index.length
    unfold CPA at hc
    rw [List.mem_append] at hc
    cases hc with
    | inl h => exact hwf c h
    | inr h =>
        rw [List.mem_flatMap] at h
        obtain ⟨e, he, hce⟩ := h
        unfold get_extensions at he
        rw [List.mem_map] at he
        obtain ⟨child, _, rfl⟩ := he
        rw [buildExtension_col_length sq t child c hce]
        exact hpk

/-- Witness for C3 at a concrete one-row table with one child. -/
theorem C3_cpa_invariants_witness :
    (⟨"P", "id", "", ⟨[0], [("id", [some 1])]⟩⟩ : Table).data.WF
    ∧ HasPK ⟨"P", "id", "", ⟨[0], [("id", [some 1])]⟩⟩
    ∧ (CPA id ⟨"P", "id", "", ⟨[0], [("id", [some 1])]⟩⟩
        [⟨"C", "cid", "fk", ⟨[], [("x", [])]⟩⟩]).rowCount
      = (⟨"P", "id", "", ⟨[0], [("id", [some 1])]⟩⟩ : Table).data.rowCount :=
  ⟨by decide, by decide,
   (C3_cpa_invariants id ⟨"P", "id", "", ⟨[0], [("id", [some 1])]⟩⟩
      [⟨"C", "cid", "fk", ⟨[], [("x", [])]⟩⟩] (by decide) (by decide)).1⟩

theorem flatMap_pair_replicate (n : Nat) (p : ColParams) :
    (List.replicate n p).flatMap (fun c => [c.std, c.mean])
      = (List.replicate n ([p.std, p.mean] : List ℚ)).flatten := by
  induction n with
  | zero => rfl
  | succ k ih =>
      rw [List.replicate_succ, List.flatMap_cons, ih, List.replicate_succ,
        List.flatten_cons]

theorem fitModel_empty_cols (sq : ℚ → ℚ) (D : Nat) :
    fitModel sq (List.replicate D ([] : List ℚ))
      = ⟨List.replicate D (List.replicate D 0),
         List.replicate D ⟨sq 0, 0⟩⟩ := by
  unfold fitModel
  have hcov : covEntry [] [] = 0 := by simp [covEntry]
  have hq : qmean [] = 0 := by simp [qmean]
  congr 1
  · rw [List.map_replicate, List.map_replicate, hcov]
  · rw [List.map_replicate, hcov, hq]

theorem flatten_model_degenerate (sq : ℚ → ℚ) (D : Nat) :
    flatten_model (fitModel sq (List.replicate D ([] : List ℚ)))
      = List.replicate (D * D) 0
        ++ (List.replicate D ([sq 0, 0] : List ℚ)).flatten := by
  rw [fitModel_empty_cols]
  unfold flatten_model
  rw [List.flatten_replicate_replicate, flatMap_pair_replicate]

theorem groupRows_cols_length (df : DF) (fk : String) (v : Option ℚ) :
    (groupRows df fk v).cols.length = df.cols.length := by
  simp [groupRows]

theorem create_extension_length (sq : ℚ → ℚ) (g : DF) :
    (create_extension sq g).length
      = g.cols.length * g.cols.length + 2 * g.cols.length := by
  unfold create_extension
  have h : (numericCols (impute_table g)).length = g.cols.length := by
    simp [numericCols, impute_table]
  rw [flatten_model_length _ (numericCols (impute_table g)).length
      (fitModel_covariance_length _ _) (fitModel_covariance_rows _ _)
      (fitModel_distribs_length _ _), h]

/-- C6: every parent-key group — including empty and degenerate groups —
yields a flattened vector of the fixed length L = D_child² + 2·D_child;
the extension table keeps one row per parent key on the parent's index;
an empty group falls back to the deterministic zero-variance vector; and
any group of at most one row gets zero covariance entries rather than a
failure. -/
theorem C6_degenerate_group_fallback (sq : ℚ → ℚ) (parent child : Table) :
    (∀ v, (create_extension sq (groupRows child.data child.foreignKey v)).length
        = extWidth child)
    ∧ ((buildExtension sq parent child).index = parent.data.index
       ∧ ∀ c ∈ (buildExtension sq parent child).cols,
           c.2.length = (dfCol parent.data parent.primaryKey).length)
    ∧ (∀ v, matchPositions (dfCol child.data child.foreignKey) v = [] →
        create_extension sq (groupRows child.data child.foreignKey v)
          = List.replicate (child.data.cols.length * child.data.cols.length) 0
            ++ (List.replicate child.data.cols.length ([sq 0, 0] : List ℚ)).flatten)
    ∧ (∀ xs ys : List ℚ, xs.length ≤ 1 → covEntry xs ys = 0) := by
  refine ⟨?_, ⟨rfl, buildExtension_col_length sq parent child⟩, ?_, ?_⟩
  · intro v
    rw [create_extension_length, groupRows_cols_length]
    rfl
  · intro v h
    unfold create_extension groupRows
    rw [h]
    have hnum : numericCols (impute_table
        { index := ([] : List Nat),
          cols := child.data.cols.map (fun c =>
            (c.1, ([] : List Nat).map (fun i => c.2.getD i none))) })
        = List.replicate child.data.cols.length ([] : List ℚ) := by
      simp only [impute_table, numericCols, List.map_map]
      rw [show ((fun c => presentVals c.2) ∘
          ((fun c => (c.1, c.2.map (fun e =>
              some (e.getD (qmean (presentVals c.2)))))) ∘
            (fun c => (c.1, ([] : List Nat).map fun i => c.2.getD i none))) :
          String × List (Option ℚ) → List ℚ)
          = fun _ => ([] : List ℚ) from ?_]
      · exact List.map_const' _ _
      · funext c
        simp [presentVals]
    rw [hnum, flatten_model_degenerate]
  · intro xs ys h
    simp [covEntry, h]

/-- Witness for C6's empty-group fallback at a childless concrete child
table. -/
theorem C6_degenerate_group_fallback_witness :
    matchPositions (dfCol (⟨"C", "cid", "fk", ⟨[], [("x", [])]⟩⟩ : Table).data
        (⟨"C", "cid", "fk", ⟨[], [("x", [])]⟩⟩ : Table).foreignKey) (some 1) = []
    ∧ create_extension id
        (groupRows (⟨"C", "cid", "fk", ⟨[], [("x", [])]⟩⟩ : Table).data
          (⟨"C", "cid", "fk", ⟨[], [("x", [])]⟩⟩ : Table).foreignKey (some 1))
      = List.replicate 1 0 ++ (List.replicate 1 ([id (0 : ℚ), 0] : List ℚ)).flatten :=
  ⟨by decide,
   (C6_degenerate_group_fallback id
      ⟨"P", "id", "", ⟨[], []⟩⟩ ⟨"C", "cid", "fk", ⟨[], [("x", [])]⟩⟩).2.2.1
     (some 1) (by decide)⟩

mutual
theorem processTree_tables_keys (sq : ℚ → ℚ) (tr : TTree) :
    (processTree sq tr).tables.map Prod.fst = treeNames tr := by
  match tr with
  | .node t cs =>
      simp only [processTree, treeNames, List.map_append, List.map_cons,
        List.map_nil]
      rw [processForest_tables_keys sq cs]

theorem processForest_tables_keys (sq : ℚ → ℚ) (cs : List TTree) :
    (processForest sq cs).tables.map Prod.fst = forestNames cs := by
  match cs with
  | [] => rfl
  | c :: rest =>
      simp only [processForest, forestNames, List.map_append]
      rw [processTree_tables_keys sq c, processForest_tables_keys sq rest]
end

mutual
theorem processTree_models_keys (sq : ℚ → ℚ) (tr : TTree) :
    (processTree sq tr).models.map Prod.fst = treeNames tr := by
  match tr with
  | .node t cs =>
      simp only [processTree, treeNames, List.map_append, List.map_cons,
        List.map_nil]
      rw [processForest_models_keys sq cs]

theorem processForest_models_keys (sq : ℚ → ℚ) (cs : List TTree) :
    (processForest sq cs).models.map Prod.fst = forestNames cs := by
  match cs with
  | [] => rfl
  | c :: rest =>
      simp only [processForest, forestNames, List.map_append]
      rw [processTree_models_keys sq c, processForest_models_keys sq rest]
end

/-- C4: after `model_database`, the augmented-table registry and the
model registry are keyed by exactly the full list of table names (in
processing order), so their key sets coincide with each other and with
the set of all tables, with exactly one fitted model per table. -/
theorem C4_model_database_registries (sq : ℚ → ℚ) (db : List TTree) :
    (model_database sq db).1.map Prod.fst = forestNames db
    ∧ (model_database sq db).2.map Prod.fst = forestNames db
    ∧ (model_database sq db).1.map Prod.fst
        = (model_database sq db).2.map Prod.fst
    ∧ ∀ n, ((model_database sq db).2.map Prod.fst).count n
        = (forestNames db).count n := by
  refine ⟨processForest_tables_keys sq db, processForest_models_keys sq db, ?_, ?_⟩
  · rw [show (model_database sq db).1 = (processForest sq db).tables from rfl,
      show (model_database sq db).2 = (processForest sq db).models from rfl,
      processForest_tables_keys sq db, processForest_models_keys sq db]
  · intro n
    rw [show (model_database sq db).2 = (processForest sq db).models from rfl,
      processForest_models_keys sq db]

theorem processTree_events_eq (sq : ℚ → ℚ) (t : Table) (cs : List TTree) :
    (processTree sq (.node t cs)).events
      = (processForest sq cs).events ++ [Ev.cpaEv t.name, Ev.fitEv t.name] := by
  simp only [processTree]

theorem forest_events_infix (sq : ℚ → ℚ) (c : TTree) :
    ∀ cs : List TTree, c ∈ cs → ∃ A B, (processForest sq cs).events
      = A ++ (processTree sq c).events ++ B := by
  intro cs
  induction cs with
  | nil => intro h; exact absurd h (List.not_mem_nil c)
  | cons x rest ih =>
      intro h
      rw [List.mem_cons] at h
      cases h with
      | inl h =>
          subst h
          exact ⟨[], (processForest sq rest).events, by simp [processForest]⟩
      | inr h =>
          obtain ⟨A, B, hAB⟩ := ih h
          exact ⟨(processTree sq x).events ++ A, B,
            by simp [processForest, hAB]⟩

theorem occurs_events_infix (sq : ℚ → ℚ) {nd tr : TTree} (h : Occurs nd tr) :
    ∃ A B, (processTree sq tr).events
      = A ++ (processTree sq nd).events ++ B := by
  induction h with
  | refl => exact ⟨[], [], by simp⟩
  | @childStep c t cs hc hsub ih =>
      obtain ⟨A, B, hAB⟩ := ih
      obtain ⟨A2, B2, hAB2⟩ := forest_events_infix sq c cs hc
      refine ⟨A2 ++ A, B ++ B2 ++ [Ev.cpaEv t.name, Ev.fitEv t.name], ?_⟩
      rw [processTree_events_eq, hAB2, hAB]
      simp [List.append_assoc]

/-- C5: the driver's traversal is a valid reverse-topological order —
for every node `nd` reachable in the database forest and every child `c`
of `nd`, the event trace fits `c`'s model strictly before `nd`'s CPA
runs. -/
theorem C5_children_before_parents (sq : ℚ → ℚ) (db : List TTree)
    (root nd c : TTree) (hroot : root ∈ db) (hocc : Occurs nd root)
    (hc : c ∈ nd.childNodes) :
    ∃ pre mid post, (processForest sq db).events
      = pre ++ [Ev.fitEv c.table.name] ++ mid
          ++ [Ev.cpaEv nd.table.name] ++ post := by
  obtain ⟨tn, csn⟩ := nd
  obtain ⟨tc, csc⟩ := c
  simp only [TTree.childNodes] at hc
  simp only [TTree.table]
  obtain ⟨A2, B2, h2⟩ := forest_events_infix sq _ csn hc
  obtain ⟨A, B, h4⟩ := occurs_events_infix sq hocc
  obtain ⟨A3, B3, h5⟩ := forest_events_infix sq root db hroot
  refine ⟨A3 ++ (A ++ (A2 ++ ((processForest sq csc).events ++ [Ev.cpaEv tc.name]))),
    B2, [Ev.fitEv tn.name] ++ (B ++ B3), ?_⟩
  rw [h5, h4, processTree_events_eq sq tn csn, h2, processTree_events_eq sq tc csc]
  simp [List.append_assoc]

/-- Witness for C5 on the three-table chain A ← B ← C. -/
theorem C5_children_before_parents_witness :
    ∃ pre mid post,
      (processForest id [TTree.node ⟨"A", "pk", "", ⟨[], []⟩⟩
        [TTree.node ⟨"B", "pk", "fk", ⟨[], []⟩⟩
          [TTree.node ⟨"C", "pk", "fk", ⟨[], []⟩⟩ []]]]).events
        = pre ++ [Ev.fitEv (TTree.node ⟨"B", "pk", "fk", ⟨[], []⟩⟩
              [TTree.node ⟨"C", "pk", "fk", ⟨[], []⟩⟩ []]).table.name] ++ mid
            ++ [Ev.cpaEv (TTree.node ⟨"A", "pk", "", ⟨[], []⟩⟩
              [TTree.node ⟨"B", "pk", "fk", ⟨[], []⟩⟩
                [TTree.node ⟨"C", "pk", "fk", ⟨[], []⟩⟩ []]]).table.name] ++ post :=
  C5_children_before_parents id _ _ _ _
    (List.mem_singleton.mpr rfl) (Occurs.refl _) (List.mem_singleton.mpr rfl)

/-- C10: with a univariate distribution class configured, `fit_model`
constructs the multivariate model exactly once, passing the
distribution's fully-qualified module-plus-class name, which for
KDEUnivariate is the string `copulas.univariate.kde.KDEUnivariate`. -/
theorem C10_fit_model_distribution_arg (sq : ℚ → ℚ) (data : DF) (u : UnivClass) :
    (fit_model sq (some u) data).2 = [some (getQualifiedName u)]
    ∧ (fit_model sq (some u) data).2.length = 1
    ∧ getQualifiedName KDEUnivariate = "copulas.univariate.kde.KDEUnivariate" :=
  ⟨rfl, rfl, by decide⟩

end SDV
